import Mathlib

/-!
Verification development for the `stall` entry registry (`src/stall.rs`).

The registry (`Stall`) owns a bijective mapping between local and remote
filesystem paths (stored in a `bimap::BiBTreeMap<PathBuf, PathBuf>`) plus a
`LoadStatus` bookkeeping record, and persists itself in two formats: a
structured RON record and a legacy newline-delimited list of remote paths.

Modelling conventions:
* Rust `PathBuf` values are modelled by their normalized component sequence
  (`List Component`), which is exactly the data `Path` equality, ordering,
  and `file_name` are defined on in Rust.
* File contents are modelled as `List Char`.
* A Rust panic (a failed `assert!` or `expect`) is modelled by `Option`:
  `none` is a panic, `some` is normal completion.
* The `BiBTreeMap` is modelled as the list of its (left, right) pairs;
  `bimap`'s overwriting `insert` removes any pair sharing the left key and
  any pair sharing the right key before appending the new pair.  Iteration
  order (sorted in the original) is abstracted: no claim observes it.
* The `ron`/`serde` layer is modelled by an executable generator and parser
  for the RON subset the `Stall` schema uses (struct record with a single
  `entries` map field, string keys/values, the `implicit_some` extension
  header emitted by the configured pretty-printer, escaped strings).
-/

namespace StallRegistry

/-- Path components, mirroring `std::path::Component` on Unix: root `/`,
`.`, `..`, and normal file names. -/
inductive Component where
  | rootDir : Component
  | curDir : Component
  | parentDir : Component
  | normal (s : List Char) : Component
deriving DecidableEq

/-- A Rust `PathBuf`, identified with its normalized component sequence. -/
abbrev PathBuf := List Component

/-- Rust `Path::file_name`: the final component when it is a normal
component, and `none` when the path ends at root, `.`, `..`, or is empty. -/
def fileName (p : PathBuf) : Option (List Char) :=
  match p.getLast? with
  | some (Component.normal s) => some s
  | _ => none

/-- Split a character list at every occurrence of `sep`; always returns at
least one (possibly empty) part, like `str::split`. -/
def splitOnChar (sep : Char) : List Char → List (List Char)
  | [] => [[]]
  | c :: rest =>
    if c = sep then [] :: splitOnChar sep rest
    else
      match splitOnChar sep rest with
      | [] => [[c]]
      | part :: parts => (c :: part) :: parts

/-- Interpretation of a non-leading path fragment produced by splitting on
`/`: empty fragments and `.` are dropped, `..` is a parent reference, and
anything else is a normal component (mirrors `Path::components`). -/
def partToCompTail (part : List Char) : Option Component :=
  if part = [] then none
  else if part = ['.'] then none
  else if part = ['.', '.'] then some Component.parentDir
  else some (Component.normal part)

/-- Rust `Path::components` for a Unix path string: a leading `/` gives a
root component, a leading `.` or `..` is kept, interior `.` and empty
fragments are dropped. -/
def parseComponents (s : List Char) : PathBuf :=
  match splitOnChar '/' s with
  | [] => []
  | first :: rest =>
    if first = [] then
      if rest = [] then []
      else Component.rootDir :: rest.filterMap partToCompTail
    else
      (if first = ['.'] then Component.curDir
       else if first = ['.', '.'] then Component.parentDir
       else Component.normal first) :: rest.filterMap partToCompTail

/-- Text of a single non-root component. -/
def compText : Component → List Char
  | Component.rootDir => []
  | Component.curDir => ['.']
  | Component.parentDir => ['.', '.']
  | Component.normal s => s

/-- Join components with `/` separators. -/
def joinParts : List Component → List Char
  | [] => []
  | [c] => compText c
  | c :: rest => compText c ++ ('/' :: joinParts rest)

/-- Render a component sequence back to the path string Rust would store
for it (used when serializing a `PathBuf` as a string). -/
def renderPath : PathBuf → List Char
  | Component.rootDir :: rest => '/' :: joinParts rest
  | p => joinParts p

/-- Character-list validity for a normal component: non-empty, no `/`, and
not spelled like `.` or `..`. -/
def validName (s : List Char) : Bool :=
  !(s.isEmpty) && !(s.contains '/') && !(s = ['.'] : Bool) && !(s = ['.', '.'] : Bool)

/-- Components allowed after the first position of a normalized path. -/
def validTail : Component → Bool
  | Component.parentDir => true
  | Component.normal s => validName s
  | _ => false

/-- Components allowed in the first position of a normalized path. -/
def validHead : Component → Bool
  | Component.normal s => validName s
  | _ => true

/-- A normalized component sequence: one that is `Path::components` of some
Rust path string. -/
def validPath : PathBuf → Bool
  | [] => true
  | c :: rest => validHead c && rest.all validTail

/-- Modelled from the spec: `LoadStatus` (its source,
`src/application/load_status.rs`, is not among the provided files).  Per
§4.1 it is pure bookkeeping: `\x7b load_path: Option<Path>, modified: bool \x7d`
with plain accessors, and a default of no load path and `modified = false`. -/
structure LoadStatus where
  load_path : Option PathBuf
  modified : Bool
deriving DecidableEq

/-- Modelled from the spec: `LoadStatus::default()` — detached, unmodified. -/
def LoadStatus.init : LoadStatus := ⟨none, false⟩

/-- Modelled from the spec: `Entry` (its source, `src/entry.rs`, is not
among the provided files).  Per §3 it is a read-only pair
`\x7b local: Path, remote: Path \x7d` projected out of the registry. -/
structure Entry where
  loc : PathBuf
  remote : PathBuf
deriving DecidableEq

/-- The stall registry: `load_status` bookkeeping plus the bijective entry
map, modelled as its list of (local, remote) pairs. -/
structure Stall where
  load_status : LoadStatus
  entries : List (PathBuf × PathBuf)
deriving DecidableEq

/-- Overwriting insert of `bimap::BiBTreeMap`: any pair sharing the left
key and any pair sharing the right key is removed, then the new pair is
added. -/
def bimapInsert (l r : PathBuf) (es : List (PathBuf × PathBuf)) :
    List (PathBuf × PathBuf) :=
  es.filter (fun p => !(p.1 == l) && !(p.2 == r)) ++ [(l, r)]

/-- `Stall::new`: attached to a load path, unmodified, no entries. -/
def Stall.new (path : PathBuf) : Stall := ⟨⟨some path, false⟩, []⟩

/-- `Stall::new_detached`: no load path, unmodified, no entries. -/
def Stall.new_detached : Stall := ⟨LoadStatus.init, []⟩

/-- `Stall::is_empty`. -/
def Stall.is_empty (s : Stall) : Bool := s.entries.isEmpty

/-- `Stall::modified`. -/
def Stall.modified (s : Stall) : Bool := s.load_status.modified

/-- `Stall::set_modified`. -/
def Stall.set_modified (s : Stall) (m : Bool) : Stall :=
  ⟨⟨s.load_status.load_path, m⟩, s.entries⟩

/-- `Stall::entry_local`: look up by local key, packaging the result as an
`Entry` view. -/
def Stall.entry_local (s : Stall) (l : PathBuf) : Option Entry :=
  (s.entries.find? (fun p => p.1 == l)).map (fun p => ⟨l, p.2⟩)

/-- `Stall::entry_remote`: look up by remote key. -/
def Stall.entry_remote (s : Stall) (r : PathBuf) : Option Entry :=
  (s.entries.find? (fun p => p.2 == r)).map (fun p => ⟨p.1, r⟩)

/-- `Stall::insert`: panics (`none`) unless both paths have a file name;
otherwise sets `modified`, then performs the overwriting bimap insert. -/
def Stall.insert (s : Stall) (l r : PathBuf) : Option Stall :=
  if (fileName l).isSome && (fileName r).isSome then
    some ⟨⟨s.load_status.load_path, true⟩, bimapInsert l r s.entries⟩
  else none

/-- `Stall::remove_local`: sets `modified` unconditionally, removes the
entry with the given local key if present, and returns the removed pair
alongside the updated registry. -/
def Stall.remove_local (s : Stall) (l : PathBuf) :
    Option (PathBuf × PathBuf) × Stall :=
  (s.entries.find? (fun p => p.1 == l),
   ⟨⟨s.load_status.load_path, true⟩, s.entries.filter (fun p => !(p.1 == l))⟩)

/-- `Stall::remove_remote`: like `remove_local` but keyed on the remote
path. -/
def Stall.remove_remote (s : Stall) (r : PathBuf) :
    Option (PathBuf × PathBuf) × Stall :=
  (s.entries.find? (fun p => p.2 == r),
   ⟨⟨s.load_status.load_path, true⟩, s.entries.filter (fun p => !(p.2 == r))⟩)

/-- `Stall::insert_list_remote`: derives the local name from the remote
path's file name (panicking — `none` — when there is none, via `expect`)
and inserts without touching the load status. -/
def Stall.insert_list_remote (s : Stall) (remote : PathBuf) : Option Stall :=
  match fileName remote with
  | some name =>
      some ⟨s.load_status, bimapInsert [Component.normal name] remote s.entries⟩
  | none => none

/-- Whitespace recognizer used for line trimming and RON lexing. -/
def isWs (c : Char) : Bool := c = ' ' || c = '\t' || c = '\n' || c = '\r'

/-- Trim leading and trailing whitespace from a line (`str::trim`). -/
def trim (l : List Char) : List Char :=
  ((l.dropWhile isWs).reverse.dropWhile isWs).reverse

/-- `BufRead::lines`: split at newlines, with no empty final line for a
trailing newline. -/
def linesOf (content : List Char) : List (List Char) :=
  let parts := splitOnChar '\n' content
  if parts.getLast? = some [] then parts.dropLast else parts

/-- Body of `Stall::parse_list_from_file`: process the lines in order,
skipping blank and comment lines, inserting every other (trimmed) line as
a remote path. -/
def parse_list_go (s : Stall) : List (List Char) → Option Stall
  | [] => some s
  | line :: rest =>
    let t := trim line
    if t.isEmpty then parse_list_go s rest
    else if ("//".data).isPrefixOf t then parse_list_go s rest
    else if ("#".data).isPrefixOf t then parse_list_go s rest
    else
      match s.insert_list_remote (parseComponents t) with
      | some s' => parse_list_go s' rest
      | none => none

/-- `Stall::parse_list_from_file` over in-memory contents: starts from a
detached registry and folds the kept lines in; `none` models the panic on
a line with no file name. -/
def parse_list_from_file (content : List Char) : Option Stall :=
  parse_list_go Stall.new_detached (linesOf content)

/-! ### RON layer

Model of the `ron`/`serde` round trip for the `Stall` schema: the
configured pretty generator (`generate_ron_into_file`) and the strict
deserializer (`parse_ron_from_bytes`). -/

/-- Tokens of the RON subset the `Stall` schema uses. -/
inductive Tok where
  | lparen : Tok
  | rparen : Tok
  | lbrace : Tok
  | rbrace : Tok
  | colon : Tok
  | comma : Tok
  | str (s : List Char) : Tok
  | ident (s : List Char) : Tok
deriving DecidableEq

/-- Resolution of a backslash escape inside a RON string literal. -/
def unesc (c : Char) : Char :=
  if c = 'n' then '\n' else if c = 't' then '\t' else if c = 'r' then '\r' else c

/-- Characters allowed in a RON identifier. -/
def isIdentChar (c : Char) : Bool := c.isAlpha || c.isDigit || c = '_'

/-- Lex the body of a RON string literal after its opening quote,
returning the unescaped contents and the input following the closing
quote; `esc` records a pending backslash. -/
def lexStrBody (esc : Bool) : List Char → Option (List Char × List Char)
  | [] => none
  | c :: rest =>
    if esc then (lexStrBody false rest).map (fun pr => (unesc c :: pr.1, pr.2))
    else if c = '"' then some ([], rest)
    else if c = '\\' then lexStrBody true rest
    else (lexStrBody false rest).map (fun pr => (c :: pr.1, pr.2))

theorem lexStrBody_length :
    ∀ l esc s r, lexStrBody esc l = some (s, r) → r.length ≤ l.length := by
  intro l
  induction l with
  | nil => intro esc s r h; simp [lexStrBody] at h
  | cons c rest ih =>
    intro esc s r h
    simp only [lexStrBody] at h
    split at h
    · simp only [Option.map_eq_some'] at h
      obtain ⟨⟨s0, r0⟩, h0, h1⟩ := h
      have := ih false s0 r0 h0
      cases h1
      simp only [List.length_cons]
      omega
    · split at h
      · simp only [Option.some.injEq, Prod.mk.injEq] at h
        obtain ⟨_, h2⟩ := h
        subst h2
        simp
      · split at h
        · have := ih true s r h
          simp only [List.length_cons]
          omega
        · simp only [Option.map_eq_some'] at h
          obtain ⟨⟨s0, r0⟩, h0, h1⟩ := h
          have := ih false s0 r0 h0
          cases h1
          simp only [List.length_cons]
          omega

end StallRegistry

namespace StallRegistry

/-- Lex a RON document into tokens; `none` models a `ron` lexing failure
(stray character or unterminated string). -/
def lexRon (l : List Char) : Option (List Tok) :=
  match l with
  | [] => some []
  | c :: rest =>
    if isWs c then lexRon rest
    else if c = '(' then (lexRon rest).map (fun ts => Tok.lparen :: ts)
    else if c = ')' then (lexRon rest).map (fun ts => Tok.rparen :: ts)
    else if c = '\x7b' then (lexRon rest).map (fun ts => Tok.lbrace :: ts)
    else if c = '\x7d' then (lexRon rest).map (fun ts => Tok.rbrace :: ts)
    else if c = ':' then (lexRon rest).map (fun ts => Tok.colon :: ts)
    else if c = ',' then (lexRon rest).map (fun ts => Tok.comma :: ts)
    else if c = '"' then
      match h : lexStrBody false rest with
      | some (s, r) => (lexRon r).map (fun ts => Tok.str s :: ts)
      | none => none
    else if isIdentChar c then
      (lexRon (rest.dropWhile isIdentChar)).map
        (fun ts => Tok.ident (c :: rest.takeWhile isIdentChar) :: ts)
    else none
termination_by l.length
decreasing_by
  all_goals simp only [List.length_cons]
  · omega
  · omega
  · omega
  · omega
  · omega
  · omega
  · omega
  · have := lexStrBody_length rest false s r h
    omega
  · have : (rest.dropWhile isIdentChar).length ≤ rest.length :=
      (List.dropWhile_sublist isIdentChar).length_le
    omega

end StallRegistry

namespace StallRegistry

/-- Parse the body of the `entries` map: a possibly empty sequence of
`"key": "value"` pairs with optional trailing comma, ended by the closing
brace; returns the pairs and the remaining tokens. -/
def parseEntryToks : List Tok → Option (List (List Char × List Char) × List Tok)
  | Tok.rbrace :: rest => some ([], rest)
  | Tok.str l :: Tok.colon :: Tok.str r :: Tok.comma :: rest =>
    (parseEntryToks rest).map (fun pr => ((l, r) :: pr.1, pr.2))
  | Tok.str l :: Tok.colon :: Tok.str r :: Tok.rbrace :: rest =>
    some ([(l, r)], rest)
  | _ => none

/-- Deserialization of the `entries` field: `serde` feeds each parsed
(string, string) pair, as a path pair, to the bimap's overwriting insert,
starting from an empty map. -/
def deserializeEntries (pairs : List (List Char × List Char)) :
    List (PathBuf × PathBuf) :=
  pairs.foldl (fun es pr => bimapInsert (parseComponents pr.1) (parseComponents pr.2) es) []

/-- Extension attribute the configured pretty-printer writes at the top of
the file (`Extensions::IMPLICIT_SOME`). -/
def ronHeader : List Char := "#![enable(implicit_some)]\n".data

/-- Drop the extension header, when present, before lexing. -/
def stripExtHeader (l : List Char) : List Char :=
  if ronHeader.isPrefixOf l then l.drop ronHeader.length else l

/-- `Stall::parse_ron_from_bytes`: strict RON deserialization of the
`Stall` schema — one record whose single field is the `entries` map
(`deny_unknown_fields`; the skipped `load_status` takes its default).
Errors carry the `Context` messages attached in the source. -/
def parse_ron_from_bytes (bytes : List Char) : Except (List Char) Stall :=
  match lexRon (stripExtHeader bytes) with
  | none => Except.error "Failed deserializing RON file".data
  | some toks =>
    match toks with
    | Tok.lparen :: Tok.ident e :: Tok.colon :: Tok.lbrace :: rest =>
      if e = "entries".data then
        match parseEntryToks rest with
        | some (pairs, rest') =>
          if rest' = [Tok.comma, Tok.rparen] ∨ rest' = [Tok.rparen] then
            Except.ok ⟨LoadStatus.init, deserializeEntries pairs⟩
          else Except.error "Failed parsing RON file".data
        | none => Except.error "Failed parsing RON file".data
      else Except.error "Failed parsing RON file".data
    | _ => Except.error "Failed parsing RON file".data

/-- Escape one character for a RON string literal. -/
def escapeChar (c : Char) : List Char :=
  if c = '"' || c = '\\' then ['\\', c] else [c]

/-- Escape a string for inclusion in a RON string literal. -/
def escape : List Char → List Char
  | [] => []
  | c :: rest => escapeChar c ++ escape rest

/-- Four spaces of pretty-printer indentation. -/
def spaces4 : List Char := [' ', ' ', ' ', ' ']

/-- Pretty-printed text of one entry of the `entries` map. -/
def entryText (p : PathBuf × PathBuf) : List Char :=
  spaces4 ++ (spaces4 ++ ('"' :: (escape (renderPath p.1) ++
    ('"' :: ':' :: ' ' :: '"' :: (escape (renderPath p.2) ++
      ('"' :: ',' :: '\n' :: []))))))

/-- `Stall::generate_ron_into_file`: the bytes produced by serializing the
registry with the configured pretty RON generator. -/
def generate_ron (s : Stall) : List Char :=
  ronHeader ++ ('(' :: '\n' :: (spaces4 ++
    ('e' :: 'n' :: 't' :: 'r' :: 'i' :: 'e' :: 's' :: ':' :: ' ' :: '\x7b' :: '\n' ::
      ((s.entries.map entryText).flatten ++ (spaces4 ++
        ('\x7d' :: ',' :: '\n' :: ')' :: []))))))

/-- `Stall::write_to_file`: serializes through `generate_ron_into_file`.
It takes the registry by shared reference, so the registry — its
`modified` flag included — is returned unchanged alongside the bytes
written. -/
def Stall.write_to_file (s : Stall) : List Char × Stall :=
  (generate_ron s, s)

/-- `Stall::read_from_file`: attempt the structured RON parse first; on
any RON failure, rewind and parse the same bytes as the legacy list
format, surfacing the list parse's outcome.  `none` models the list
parser's panic. -/
def read_from_file (content : List Char) : Option (Except (List Char) Stall) :=
  match parse_ron_from_bytes content with
  | Except.ok st => some (Except.ok st)
  | Except.error _ => (parse_list_from_file content).map Except.ok

end StallRegistry

namespace StallRegistry

/-! ### Bijection invariant -/

/-- The bijection invariant of the entry map: no two entries share a local
path and no two entries share a remote path. -/
def StallInv (s : Stall) : Prop :=
  (s.entries.map Prod.fst).Nodup ∧ (s.entries.map Prod.snd).Nodup

theorem bimapInsert_fst_nodup (l r : PathBuf) (es : List (PathBuf × PathBuf))
    (h : (es.map Prod.fst).Nodup) :
    ((bimapInsert l r es).map Prod.fst).Nodup := by
  unfold bimapInsert
  rw [List.map_append, List.nodup_append]
  refine ⟨?_, by simp, ?_⟩
  · exact ((List.filter_sublist es).map Prod.fst).nodup h
  · intro a ha hb
    simp only [List.map_cons, List.map_nil, List.mem_singleton] at hb
    subst hb
    simp only [List.mem_map, List.mem_filter] at ha
    obtain ⟨p, ⟨_, hp⟩, hfst⟩ := ha
    simp only [Bool.and_eq_true, Bool.not_eq_true', beq_eq_false_iff_ne] at hp
    exact hp.1 hfst

theorem bimapInsert_snd_nodup (l r : PathBuf) (es : List (PathBuf × PathBuf))
    (h : (es.map Prod.snd).Nodup) :
    ((bimapInsert l r es).map Prod.snd).Nodup := by
  unfold bimapInsert
  rw [List.map_append, List.nodup_append]
  refine ⟨?_, by simp, ?_⟩
  · exact ((List.filter_sublist es).map Prod.snd).nodup h
  · intro a ha hb
    simp only [List.map_cons, List.map_nil, List.mem_singleton] at hb
    subst hb
    simp only [List.mem_map, List.mem_filter] at ha
    obtain ⟨p, ⟨_, hp⟩, hfst⟩ := ha
    simp only [Bool.and_eq_true, Bool.not_eq_true', beq_eq_false_iff_ne] at hp
    exact hp.2 hfst

theorem filter_inv (s : Stall) (pred : PathBuf × PathBuf → Bool) (hs : StallInv s) :
    StallInv ⟨⟨s.load_status.load_path, true⟩, s.entries.filter pred⟩ := by
  obtain ⟨h1, h2⟩ := hs
  exact ⟨((List.filter_sublist s.entries).map Prod.fst).nodup h1,
         ((List.filter_sublist s.entries).map Prod.snd).nodup h2⟩

theorem insert_inv (s : Stall) (l r : PathBuf) (s' : Stall)
    (hs : StallInv s) (h : s.insert l r = some s') : StallInv s' := by
  unfold Stall.insert at h
  split at h
  · cases h
    exact ⟨bimapInsert_fst_nodup l r s.entries hs.1,
           bimapInsert_snd_nodup l r s.entries hs.2⟩
  · cases h

theorem insert_list_remote_inv (s : Stall) (r : PathBuf) (s' : Stall)
    (hs : StallInv s) (h : s.insert_list_remote r = some s') : StallInv s' := by
  unfold Stall.insert_list_remote at h
  split at h
  · cases h
    next name _ =>
      exact ⟨bimapInsert_fst_nodup [Component.normal name] r s.entries hs.1,
             bimapInsert_snd_nodup [Component.normal name] r s.entries hs.2⟩
  · cases h

theorem parse_list_go_inv :
    ∀ (lines : List (List Char)) (s s' : Stall),
      StallInv s → parse_list_go s lines = some s' → StallInv s' := by
  intro lines
  induction lines with
  | nil =>
    intro s s' hs h
    simp only [parse_list_go, Option.some.injEq] at h
    cases h
    exact hs
  | cons t rest ih =>
    intro s s' hs h
    simp only [parse_list_go] at h
    split at h
    · exact ih s s' hs h
    · split at h
      · exact ih s s' hs h
      · split at h
        · exact ih s s' hs h
        · split at h
          · next s1 h1 =>
            exact ih s1 s' (insert_list_remote_inv s _ s1 hs h1) h
          · cases h

/-- States of the registry reachable through its mutation API and the
list-format loader. -/
inductive Reachable : Stall → Prop
  | attached (p : PathBuf) : Reachable (Stall.new p)
  | detached : Reachable Stall.new_detached
  | ins {s s' : Stall} {l r : PathBuf} :
      Reachable s → s.insert l r = some s' → Reachable s'
  | rml {s : Stall} {l : PathBuf} :
      Reachable s → Reachable (s.remove_local l).2
  | rmr {s : Stall} {r : PathBuf} :
      Reachable s → Reachable (s.remove_remote r).2
  | list {content : List Char} {s : Stall} :
      parse_list_from_file content = some s → Reachable s

/-- C1: in any `Stall` reachable by any sequence of `insert`,
`remove_local`, `remove_remote`, and list-format parsing, no two entries
share a local path and no two entries share a remote path; moreover an
`insert` leaves exactly one entry carrying its local key and exactly one
carrying its remote key — a colliding pair is evicted, never kept as a
second mapping from the same key. -/
theorem reachable_bijection_invariant (s : Stall) (h : Reachable s) :
    ((s.entries.map Prod.fst).Nodup ∧ (s.entries.map Prod.snd).Nodup) ∧
    (∀ l r s', s.insert l r = some s' →
      s'.entries.filter (fun p => p.1 == l) = [(l, r)] ∧
      s'.entries.filter (fun p => p.2 == r) = [(l, r)]) := by
  have inv : StallInv s := by
    induction h with
    | attached p => exact ⟨by simp [Stall.new], by simp [Stall.new]⟩
    | detached => exact ⟨by simp [Stall.new_detached], by simp [Stall.new_detached]⟩
    | ins hr hi ih => exact insert_inv _ _ _ _ ih hi
    | rml hr ih => exact filter_inv _ _ ih
    | rmr hr ih => exact filter_inv _ _ ih
    | list hp => exact parse_list_go_inv _ _ _ ⟨by simp [Stall.new_detached], by simp [Stall.new_detached]⟩ hp
  refine ⟨inv, ?_⟩
  intro l r s' hins
  unfold Stall.insert at hins
  split at hins
  · cases hins
    constructor
    · simp only [bimapInsert, List.filter_append, List.filter_filter]
      rw [List.filter_eq_nil_iff.mpr, List.nil_append]
      · simp
      · intro p _
        by_cases hp : p.1 = l <;> simp [hp]
    · simp only [bimapInsert, List.filter_append, List.filter_filter]
      rw [List.filter_eq_nil_iff.mpr, List.nil_append]
      · simp
      · intro p _
        by_cases hp : p.2 = r <;> simp [hp]
  · cases hins

/-- Witness for C1 at a concrete reachable state. -/
theorem reachable_bijection_invariant_witness :
    (((Stall.new []).entries.map Prod.fst).Nodup ∧
      ((Stall.new []).entries.map Prod.snd).Nodup) :=
  (reachable_bijection_invariant (Stall.new []) (Reachable.attached [])).1

end StallRegistry

namespace StallRegistry

/-! ### Lookup and eviction lemmas -/

theorem find?_filter_of_imp {α : Type} (p q : α → Bool) (l : List α)
    (h : ∀ a ∈ l, p a = true → q a = false) : (l.filter p).find? q = none := by
  rw [List.find?_eq_none]
  intro x hx
  rw [List.mem_filter] at hx
  simp [h x hx.1 hx.2]

/-- C2: inserting a valid pair `(l, r)` makes it retrievable through both
`entry_local l` and `entry_remote r`; re-inserting the same local key with
a fresh remote `r2` evicts the `r1`-keyed entry entirely, so `entry_remote
r1` is `none` and `entry_remote r2` finds `(l, r2)`. -/
theorem insert_lookup_roundtrip (s : Stall) (l r r1 r2 : PathBuf)
    (hl : (fileName l).isSome = true) (hr : (fileName r).isSome = true)
    (hr1 : (fileName r1).isSome = true) (hr2 : (fileName r2).isSome = true)
    (hne : r1 ≠ r2) :
    (∃ s', s.insert l r = some s' ∧
      s'.entry_local l = some ⟨l, r⟩ ∧ s'.entry_remote r = some ⟨l, r⟩) ∧
    (∀ s1 s2, s.insert l r1 = some s1 → s1.insert l r2 = some s2 →
      s2.entry_remote r1 = none ∧ s2.entry_remote r2 = some ⟨l, r2⟩) := by
  constructor
  · refine ⟨⟨⟨s.load_status.load_path, true⟩, bimapInsert l r s.entries⟩, ?_, ?_, ?_⟩
    · simp [Stall.insert, hl, hr]
    · simp only [Stall.entry_local, bimapInsert, List.find?_append]
      rw [find?_filter_of_imp]
      · simp [List.find?]
      · intro p _ hp
        simp only [Bool.and_eq_true, Bool.not_eq_true', beq_eq_false_iff_ne] at hp
        simp [hp.1]
    · simp only [Stall.entry_remote, bimapInsert, List.find?_append]
      rw [find?_filter_of_imp]
      · simp [List.find?]
      · intro p _ hp
        simp only [Bool.and_eq_true, Bool.not_eq_true', beq_eq_false_iff_ne] at hp
        simp [hp.2]
  · intro s1 s2 h1 h2
    have e1 : s1.entries = bimapInsert l r1 s.entries := by
      unfold Stall.insert at h1
      rw [hl, hr1] at h1
      simp only [Bool.and_self, if_true] at h1
      cases h1
      rfl
    have e2 : s2.entries = bimapInsert l r2 s1.entries := by
      unfold Stall.insert at h2
      rw [hl, hr2] at h2
      simp only [Bool.and_self, if_true] at h2
      cases h2
      rfl
    constructor
    · simp only [Stall.entry_remote, e2, bimapInsert, e1, List.find?_append]
      rw [find?_filter_of_imp]
      · have hb : (r2 == r1) = false := by
          rw [beq_eq_false_iff_ne]
          exact fun hc => hne hc.symm
        have : (List.find? (fun p => p.2 == r1) [(l, r2)]) = none := by
          simp [List.find?, hb]
        rw [this]
        simp
      · intro p hp hpred
        simp only [Bool.and_eq_true, Bool.not_eq_true', beq_eq_false_iff_ne] at hpred
        simp only [List.mem_append, List.mem_filter, List.mem_singleton] at hp
        rcases hp with ⟨_, hfil⟩ | hplr
        · simp only [Bool.and_eq_true, Bool.not_eq_true', beq_eq_false_iff_ne] at hfil
          simp [hfil.2]
        · exfalso
          apply hpred.1
          rw [hplr]
    · simp only [Stall.entry_remote, e2, bimapInsert, List.find?_append]
      rw [find?_filter_of_imp]
      · simp [List.find?]
      · intro p _ hpred
        simp only [Bool.and_eq_true, Bool.not_eq_true', beq_eq_false_iff_ne] at hpred
        simp [hpred.2]

/-- Witness for C2 at concrete paths, with every hypothesis discharged. -/
theorem insert_lookup_roundtrip_witness :
    (∃ s', (Stall.new []).insert [Component.normal ['l']] [Component.normal ['r']] = some s' ∧
      s'.entry_local [Component.normal ['l']] =
        some ⟨[Component.normal ['l']], [Component.normal ['r']]⟩ ∧
      s'.entry_remote [Component.normal ['r']] =
        some ⟨[Component.normal ['l']], [Component.normal ['r']]⟩) ∧
    ((Stall.mk ⟨some [], true⟩
        [([Component.normal ['l']], [Component.normal ['b']])]).entry_remote
        [Component.normal ['a']] = none ∧
      (Stall.mk ⟨some [], true⟩
        [([Component.normal ['l']], [Component.normal ['b']])]).entry_remote
        [Component.normal ['b']] =
        some ⟨[Component.normal ['l']], [Component.normal ['b']]⟩) :=
  ⟨(insert_lookup_roundtrip (Stall.new [])
      [Component.normal ['l']] [Component.normal ['r']]
      [Component.normal ['a']] [Component.normal ['b']]
      (by decide) (by decide) (by decide) (by decide) (by decide)).1,
    (insert_lookup_roundtrip (Stall.new [])
      [Component.normal ['l']] [Component.normal ['r']]
      [Component.normal ['a']] [Component.normal ['b']]
      (by decide) (by decide) (by decide) (by decide) (by decide)).2
      (Stall.mk ⟨some [], true⟩ [([Component.normal ['l']], [Component.normal ['a']])])
      (Stall.mk ⟨some [], true⟩ [([Component.normal ['l']], [Component.normal ['b']])])
      (by decide) (by decide)⟩

end StallRegistry

namespace StallRegistry

/-! ### Eviction counting -/

theorem countP_or_le {α : Type} (p q : α → Bool) :
    ∀ l : List α, l.countP (fun a => p a || q a) ≤ l.countP p + l.countP q := by
  intro l
  induction l with
  | nil => simp [List.countP_nil]
  | cons a rest ih =>
    simp only [List.countP_cons]
    by_cases hp : p a = true <;> by_cases hq : q a = true <;>
      simp [hp, hq] <;> omega

theorem countP_fst_le_one (es : List (PathBuf × PathBuf))
    (h : (es.map Prod.fst).Nodup) (l : PathBuf) :
    es.countP (fun p => p.1 == l) ≤ 1 := by
  induction es with
  | nil => simp [List.countP_nil]
  | cons a rest ih =>
    simp only [List.map_cons, List.nodup_cons] at h
    obtain ⟨hnm, hrest⟩ := h
    simp only [List.countP_cons]
    by_cases ha : a.1 = l
    · have hz : rest.countP (fun p => p.1 == l) = 0 := by
        rw [List.countP_eq_zero]
        intro q hq
        simp only [beq_iff_eq]
        intro hql
        exact hnm (by rw [← ha] at hql; exact (List.mem_map.mpr ⟨q, hq, hql⟩))
      simp [ha, hz]
    · simp only [beq_iff_eq, ha]
      simpa using ih hrest

theorem countP_snd_le_one (es : List (PathBuf × PathBuf))
    (h : (es.map Prod.snd).Nodup) (r : PathBuf) :
    es.countP (fun p => p.2 == r) ≤ 1 := by
  induction es with
  | nil => simp [List.countP_nil]
  | cons a rest ih =>
    simp only [List.map_cons, List.nodup_cons] at h
    obtain ⟨hnm, hrest⟩ := h
    simp only [List.countP_cons]
    by_cases ha : a.2 = r
    · have hz : rest.countP (fun p => p.2 == r) = 0 := by
        rw [List.countP_eq_zero]
        intro q hq
        simp only [beq_iff_eq]
        intro hql
        exact hnm (by rw [← ha] at hql; exact (List.mem_map.mpr ⟨q, hq, hql⟩))
      simp [ha, hz]
    · simp only [beq_iff_eq, ha]
      simpa using ih hrest

/-- C3 counterexample: a reachable two-entry registry in which a single
`insert` evicts both pre-existing entries — one colliding on the local
key, the other on the remote key — so "removes at most one pre-existing
entry" is false.  The first conjunct shows the registry is produced by two
inserts; the second counts the pre-existing entries that a single further
insert removes: two. -/
theorem insert_single_eviction_counterexample :
    (((Stall.new []).insert [Component.normal ['a']] [Component.normal ['b']]).bind
        (fun s => s.insert [Component.normal ['c']] [Component.normal ['d']]) =
      some (Stall.mk ⟨some [], true⟩
        [([Component.normal ['a']], [Component.normal ['b']]),
         ([Component.normal ['c']], [Component.normal ['d']])])) ∧
    ((Stall.mk ⟨some [], true⟩
        [([Component.normal ['a']], [Component.normal ['b']]),
         ([Component.normal ['c']], [Component.normal ['d']])]).insert
        [Component.normal ['a']] [Component.normal ['d']]).map
      (fun s' => ((Stall.mk ⟨some [], true⟩
        [([Component.normal ['a']], [Component.normal ['b']]),
         ([Component.normal ['c']], [Component.normal ['d']])]).entries.filter
          (fun p => !(s'.entries.contains p))).length) = some 2 := by
  decide

/-- C3 as amended: a single successful `insert` on a registry satisfying
the bijection invariant removes at most two pre-existing entries (one
colliding on the local key and one on the remote key), and sets
`modified` to `true`. -/
theorem insert_evicts_at_most_two (s : Stall) (l r : PathBuf) (s' : Stall)
    (hinv : StallInv s) (h : s.insert l r = some s') :
    (s.entries.filter (fun p => !(s'.entries.contains p))).length ≤ 2 ∧
    s'.modified = true := by
  unfold Stall.insert at h
  split at h
  · cases h
    refine ⟨?_, rfl⟩
    have himp : ∀ p ∈ s.entries, (!((bimapInsert l r s.entries).contains p)) = true →
        (p.1 == l || p.2 == r) = true := by
      intro p hp hnc
      by_contra hbad
      simp only [Bool.or_eq_true, beq_iff_eq, not_or] at hbad
      have hmem : p ∈ bimapInsert l r s.entries := by
        unfold bimapInsert
        rw [List.mem_append]
        left
        rw [List.mem_filter]
        refine ⟨hp, ?_⟩
        simp only [Bool.and_eq_true, Bool.not_eq_true', beq_eq_false_iff_ne]
        exact hbad
      rw [Bool.not_eq_true'] at hnc
      simp only [List.contains] at hnc
      rw [List.elem_eq_true_of_mem hmem] at hnc
      cases hnc
    calc (s.entries.filter (fun p => !((bimapInsert l r s.entries).contains p))).length
        = s.entries.countP (fun p => !((bimapInsert l r s.entries).contains p)) :=
          (List.countP_eq_length_filter _ _).symm
      _ ≤ s.entries.countP (fun p => p.1 == l || p.2 == r) :=
          List.countP_mono_left himp
      _ ≤ s.entries.countP (fun p => p.1 == l) + s.entries.countP (fun p => p.2 == r) :=
          countP_or_le _ _ _
      _ ≤ 2 := by
          have h1 := countP_fst_le_one s.entries hinv.1 l
          have h2 := countP_snd_le_one s.entries hinv.2 r
          omega
  · cases h

/-- Witness for the amended C3 at a concrete registry. -/
theorem insert_evicts_at_most_two_witness :
    ((Stall.new []).entries.filter
        (fun p => !((Stall.mk ⟨some [], true⟩
          [([Component.normal ['a']], [Component.normal ['b']])]).entries.contains p))).length ≤ 2 ∧
    (Stall.mk ⟨some [], true⟩
      [([Component.normal ['a']], [Component.normal ['b']])]).modified = true := by
  have h := insert_evicts_at_most_two (Stall.new [])
    [Component.normal ['a']] [Component.normal ['b']]
    (Stall.mk ⟨some [], true⟩ [([Component.normal ['a']], [Component.normal ['b']])])
    ⟨by decide, by decide⟩ (by decide)
  exact h

end StallRegistry

namespace StallRegistry

/-- C9: removing an absent key returns `None` and leaves the entry set
unchanged, yet still sets `modified` to `true` — for `remove_local` with a
path absent as a local key, and for `remove_remote` with a path absent as
a remote key. -/
theorem remove_absent_sets_modified (s : Stall) (p : PathBuf) :
    (s.entry_local p = none →
      (s.remove_local p).1 = none ∧ (s.remove_local p).2.entries = s.entries ∧
      (s.remove_local p).2.modified = true) ∧
    (s.entry_remote p = none →
      (s.remove_remote p).1 = none ∧ (s.remove_remote p).2.entries = s.entries ∧
      (s.remove_remote p).2.modified = true) := by
  constructor
  · intro h
    rw [Stall.entry_local, Option.map_eq_none'] at h
    refine ⟨h, ?_, rfl⟩
    simp only [Stall.remove_local]
    rw [List.filter_eq_self]
    intro q hq
    rw [List.find?_eq_none] at h
    simpa using h q hq
  · intro h
    rw [Stall.entry_remote, Option.map_eq_none'] at h
    refine ⟨h, ?_, rfl⟩
    simp only [Stall.remove_remote]
    rw [List.filter_eq_self]
    intro q hq
    rw [List.find?_eq_none] at h
    simpa using h q hq

/-- Witness for C9 at a concrete registry and key, with the absence
hypotheses discharged. -/
theorem remove_absent_sets_modified_witness :
    (((Stall.new []).remove_local [Component.normal ['a']]).1 = none ∧
      ((Stall.new []).remove_local [Component.normal ['a']]).2.entries = (Stall.new []).entries ∧
      ((Stall.new []).remove_local [Component.normal ['a']]).2.modified = true) ∧
    (((Stall.new []).remove_remote [Component.normal ['a']]).1 = none ∧
      ((Stall.new []).remove_remote [Component.normal ['a']]).2.entries = (Stall.new []).entries ∧
      ((Stall.new []).remove_remote [Component.normal ['a']]).2.modified = true) :=
  ⟨(remove_absent_sets_modified (Stall.new []) [Component.normal ['a']]).1 (by decide),
   (remove_absent_sets_modified (Stall.new []) [Component.normal ['a']]).2 (by decide)⟩

/-- C6: parsing the list-format input `"a/b/file.txt\n# comment\n\nc.txt\n"`
yields exactly the entries `(file.txt, a/b/file.txt)` and `(c.txt, c.txt)`
— blank and comment lines skipped, each local derived as the remote's
file name — and the resulting registry is not marked modified. -/
theorem parse_list_example :
    parse_list_from_file "a/b/file.txt\n# comment\n\nc.txt\n".data =
      some (Stall.mk ⟨none, false⟩
        [([Component.normal "file.txt".data],
          [Component.normal "a".data, Component.normal "b".data,
           Component.normal "file.txt".data]),
         ([Component.normal "c.txt".data], [Component.normal "c.txt".data])]) ∧
    (parse_list_from_file "a/b/file.txt\n# comment\n\nc.txt\n".data).map
      Stall.modified = some false := by
  decide

/-- C7 counterexample: the list parser does panic on the input `"/"` —
`insert_list_remote`'s `expect` fails on a path with no file name — rather
than returning a parse error (`none` is the panic outcome of the model). -/
theorem parse_list_root_panics : parse_list_from_file "/".data = none := by
  decide

/-- C7 as amended: for every list-format input containing a non-blank,
non-comment line that resolves to a path with no file-name component, the
list parser panics (the `expect` in `insert_list_remote`); it neither
returns an error value nor completes. -/
theorem parse_list_bad_line_panics (content : List Char)
    (h : ∃ t ∈ linesOf content, (trim t).isEmpty = false ∧
      ("//".data.isPrefixOf (trim t)) = false ∧
      ("#".data.isPrefixOf (trim t)) = false ∧
      fileName (parseComponents (trim t)) = none) :
    parse_list_from_file content = none := by
  have main : ∀ (lines : List (List Char)) (s : Stall),
      (∃ t ∈ lines, (trim t).isEmpty = false ∧
        ("//".data.isPrefixOf (trim t)) = false ∧
        ("#".data.isPrefixOf (trim t)) = false ∧
        fileName (parseComponents (trim t)) = none) →
      parse_list_go s lines = none := by
    intro lines
    induction lines with
    | nil => intro s h0; simp at h0
    | cons t rest ih =>
      intro s h0
      simp only [List.mem_cons] at h0
      obtain ⟨u, hu, hker⟩ := h0
      simp only [parse_list_go]
      rcases hu with rfl | hmem
      · rw [hker.1, hker.2.1, hker.2.2.1]
        simp only [Bool.false_eq_true, if_false]
        rw [Stall.insert_list_remote, hker.2.2.2]
      · split
        · exact ih s ⟨u, hmem, hker⟩
        · split
          · exact ih s ⟨u, hmem, hker⟩
          · split
            · exact ih s ⟨u, hmem, hker⟩
            · split
              · next s1 _ => exact ih s1 ⟨u, hmem, hker⟩
              · rfl
  exact main (linesOf content) Stall.new_detached h

/-- Witness for the amended C7 on an input whose second line has no file
name. -/
theorem parse_list_bad_line_panics_witness :
    parse_list_from_file "ok.txt\n/etc/..\n".data = none :=
  parse_list_bad_line_panics "ok.txt\n/etc/..\n".data (by decide)

/-- C8 counterexample: a modified registry written through
`write_to_file` still has `modified = true` afterwards — no write variant
clears the flag (the write takes the registry by shared reference). -/
theorem write_leaves_modified_counterexample :
    (((Stall.new []).insert [Component.normal ['a']] [Component.normal ['b']]).map
      (fun s => (s.write_to_file).2.modified)) = some true := by
  decide

/-- C8 as amended: a successful write serializes the registry and returns
it entirely unchanged — in particular `modified` keeps its prior value and
is never cleared by any write variant; callers must clear it themselves
with `set_modified(false)`. -/
theorem write_to_file_preserves_registry (s : Stall) :
    (s.write_to_file).2 = s ∧ (s.write_to_file).2.modified = s.modified :=
  ⟨rfl, rfl⟩

end StallRegistry

namespace StallRegistry

/-! ### Last-wins behavior of the list parser -/

/-- A line the list parser keeps: non-blank after trimming and not a
comment. -/
def keptLine (t : List Char) : Bool :=
  !(trim t).isEmpty && !("//".data.isPrefixOf (trim t)) && !("#".data.isPrefixOf (trim t))

/-- A kept line whose remote path has file name `name`. -/
def matchingLine (name : List Char) (t : List Char) : Bool :=
  keptLine t && (fileName (parseComponents (trim t)) == some name)

/-- Invariant of list-parsed registries: every entry's local path is the
single-component file name of its remote path. -/
def listConsistent (s : Stall) : Prop :=
  ∀ p ∈ s.entries, ∃ n, fileName p.2 = some n ∧ p.1 = [Component.normal n]

theorem insert_list_remote_consistent (s : Stall) (r : PathBuf) (s' : Stall)
    (hs : listConsistent s) (h : s.insert_list_remote r = some s') :
    listConsistent s' := by
  unfold Stall.insert_list_remote at h
  split at h
  · next n hn =>
    cases h
    intro p hp
    simp only [bimapInsert, List.mem_append, List.mem_filter, List.mem_singleton] at hp
    rcases hp with ⟨hmem, _⟩ | rfl
    · exact hs p hmem
    · exact ⟨n, hn, rfl⟩
  · cases h

theorem find?_filter_eq {α : Type} (pred q : α → Bool) (l : List α)
    (h : ∀ a ∈ l, pred a = false → q a = false) :
    (l.filter pred).find? q = l.find? q := by
  induction l with
  | nil => rfl
  | cons a rest ih =>
    simp only [List.mem_cons] at h
    by_cases hp : pred a = true
    · rw [List.filter_cons_of_pos hp]
      by_cases hq : q a = true
      · simp [List.find?_cons, hq]
      · rw [Bool.not_eq_true] at hq
        simp only [List.find?_cons, hq]
        exact ih (fun b hb => h b (Or.inr hb))
    · rw [Bool.not_eq_true] at hp
      rw [List.filter_cons_of_neg (by simp [hp])]
      have hqa : q a = false := h a (Or.inl rfl) hp
      simp only [List.find?_cons, hqa]
      exact ih (fun b hb => h b (Or.inr hb))

theorem parse_list_go_lookup :
    ∀ (lines : List (List Char)) (s st : Stall) (name : List Char),
      listConsistent s → parse_list_go s lines = some st →
      (((lines.filter (matchingLine name)).getLast? = none →
        st.entries.find? (fun p => p.1 == [Component.normal name]) =
          s.entries.find? (fun p => p.1 == [Component.normal name])) ∧
       (∀ t, (lines.filter (matchingLine name)).getLast? = some t →
        st.entries.find? (fun p => p.1 == [Component.normal name]) =
          some ([Component.normal name], parseComponents (trim t)))) := by
  intro lines
  induction lines with
  | nil =>
    intro s st name _ h
    simp only [parse_list_go, Option.some.injEq] at h
    cases h
    exact ⟨fun _ => rfl, fun t ht => by simp at ht⟩
  | cons t rest ih =>
    intro s st name hcons h
    simp only [parse_list_go] at h
    by_cases hk : keptLine t = true
    · have hk1 : (trim t).isEmpty = false := by
        unfold keptLine at hk
        simp only [Bool.and_eq_true, Bool.not_eq_true'] at hk
        exact hk.1.1
      have hk2 : ("//".data.isPrefixOf (trim t)) = false := by
        unfold keptLine at hk
        simp only [Bool.and_eq_true, Bool.not_eq_true'] at hk
        exact hk.1.2
      have hk3 : ("#".data.isPrefixOf (trim t)) = false := by
        unfold keptLine at hk
        simp only [Bool.and_eq_true, Bool.not_eq_true'] at hk
        exact hk.2
      rw [hk1, hk2, hk3] at h
      simp only [Bool.false_eq_true, if_false] at h
      cases hins : Stall.insert_list_remote s (parseComponents (trim t)) with
      | none => rw [hins] at h; cases h
      | some s1 =>
        rw [hins] at h
        have hcons1 : listConsistent s1 :=
          insert_list_remote_consistent s _ s1 hcons hins
        obtain ⟨n, hn, he1⟩ : ∃ n, fileName (parseComponents (trim t)) = some n ∧
            s1.entries = bimapInsert [Component.normal n]
              (parseComponents (trim t)) s.entries := by
          unfold Stall.insert_list_remote at hins
          split at hins
          · next n hn => cases hins; exact ⟨n, hn, rfl⟩
          · cases hins
        by_cases hm : matchingLine name t = true
        · have hname : n = name := by
            unfold matchingLine at hm
            simp only [Bool.and_eq_true, beq_iff_eq] at hm
            have := hm.2
            rw [hn] at this
            exact Option.some.inj this
          subst hname
          rw [List.filter_cons_of_pos hm]
          have hfind1 : s1.entries.find? (fun p => p.1 == [Component.normal n]) =
              some ([Component.normal n], parseComponents (trim t)) := by
            rw [he1]
            simp only [bimapInsert, List.find?_append]
            rw [find?_filter_of_imp]
            · simp [List.find?]
            · intro p _ hp
              simp only [Bool.and_eq_true, Bool.not_eq_true', beq_eq_false_iff_ne] at hp
              simp [hp.1]
          constructor
          · intro hnone
            rw [List.getLast?_cons] at hnone
            cases hnone
          · intro u hu
            rw [List.getLast?_cons] at hu
            cases hrest : (rest.filter (matchingLine n)).getLast? with
            | none =>
              rw [hrest] at hu
              simp only [Option.getD_none, Option.some.injEq] at hu
              subst hu
              have := (ih s1 st n hcons1 h).1 hrest
              rw [this, hfind1]
            | some v =>
              rw [hrest] at hu
              simp only [Option.getD_some, Option.some.injEq] at hu
              subst hu
              exact (ih s1 st n hcons1 h).2 v hrest
        · have hnn : ¬ n = name := by
            intro heq
            apply hm
            unfold matchingLine
            rw [hk, hn, heq]
            simp
          rw [Bool.not_eq_true] at hm
          rw [List.filter_cons_of_neg (by simp [hm])]
          have hframe : s1.entries.find? (fun p => p.1 == [Component.normal name]) =
              s.entries.find? (fun p => p.1 == [Component.normal name]) := by
            rw [he1]
            simp only [bimapInsert, List.find?_append]
            have happ : (List.find? (fun p => p.1 == [Component.normal name])
                [([Component.normal n], parseComponents (trim t))]) = none := by
              have hb : ([Component.normal n] == [Component.normal name]) = false := by
                rw [beq_eq_false_iff_ne]
                simp [hnn]
              simp [List.find?, hb]
            rw [happ, Option.or_none]
            apply find?_filter_eq
            intro a ha hpred
            simp only [Bool.and_eq_false_iff, Bool.not_eq_false', beq_iff_eq] at hpred
            have ha1 : a.1 = [Component.normal n] := by
              rcases hpred with h1 | h2
              · exact h1
              · obtain ⟨m, hm1, hm2⟩ := hcons a ha
                rw [h2, hn] at hm1
                rw [hm2, Option.some.inj hm1]
            rw [ha1]
            simp [hnn]
          constructor
          · intro hnone
            rw [(ih s1 st name hcons1 h).1 hnone, hframe]
          · intro u hu
            exact (ih s1 st name hcons1 h).2 u hu
    · rw [Bool.not_eq_true] at hk
      have hskip : parse_list_go s rest = some st := by
        split at h
        · exact h
        · split at h
          · exact h
          · split at h
            · exact h
            · exfalso
              next hc1 hc2 hc3 =>
                rw [Bool.not_eq_true] at hc1 hc2 hc3
                unfold keptLine at hk
                rw [hc1, hc2, hc3] at hk
                simp at hk
      have hml : matchingLine name t = false := by
        unfold matchingLine
        rw [hk]
        simp
      rw [List.filter_cons_of_neg (by simp [hml])]
      exact ih s st name hcons hskip

/-- C10: when a list-format input has (at least) one — in particular two
or more — kept lines whose remote paths share the file name `name`, the
parsed registry has exactly one entry with that local name, and its
remote path is the one from the last such line. -/
theorem parse_list_last_wins (content : List Char) (st : Stall)
    (name : List Char) (t : List Char)
    (h : parse_list_from_file content = some st)
    (hlast : ((linesOf content).filter (matchingLine name)).getLast? = some t) :
    st.entry_local [Component.normal name] =
      some ⟨[Component.normal name], parseComponents (trim t)⟩ ∧
    (st.entries.filter (fun p => p.1 == [Component.normal name])).length = 1 := by
  have hcons0 : listConsistent Stall.new_detached := by
    intro p hp
    simp [Stall.new_detached] at hp
  have hfind := (parse_list_go_lookup (linesOf content) Stall.new_detached st name
    hcons0 h).2 t hlast
  constructor
  · rw [Stall.entry_local, hfind]
    rfl
  · have hinv : StallInv st :=
      parse_list_go_inv (linesOf content) Stall.new_detached st
        ⟨by simp [Stall.new_detached], by simp [Stall.new_detached]⟩ h
    have hle : st.entries.countP (fun p => p.1 == [Component.normal name]) ≤ 1 :=
      countP_fst_le_one st.entries hinv.1 [Component.normal name]
    have hmem : ([Component.normal name], parseComponents (trim t)) ∈ st.entries :=
      List.mem_of_find?_eq_some hfind
    have hge : 1 ≤ st.entries.countP (fun p => p.1 == [Component.normal name]) := by
      rw [List.countP_eq_length_filter]
      have : ([Component.normal name], parseComponents (trim t)) ∈
          st.entries.filter (fun p => p.1 == [Component.normal name]) := by
        rw [List.mem_filter]
        exact ⟨hmem, by simp⟩
      exact List.length_pos.mpr (fun hnil => by rw [hnil] at this; cases this)
    rw [← List.countP_eq_length_filter]
    omega

/-- Witness for C10 on the input with remotes `a/x.txt` and `b/x.txt`:
the surviving entry maps `x.txt` to `b/x.txt`. -/
theorem parse_list_last_wins_witness :
    (parse_list_from_file "a/x.txt\nb/x.txt\n".data).map
        (fun st => st.entry_local [Component.normal "x.txt".data]) =
      some (some ⟨[Component.normal "x.txt".data],
        [Component.normal "b".data, Component.normal "x.txt".data]⟩) := by
  cases hp : parse_list_from_file "a/x.txt\nb/x.txt\n".data with
  | none => exact absurd hp (by decide)
  | some st =>
    have h := parse_list_last_wins "a/x.txt\nb/x.txt\n".data st
      "x.txt".data "b/x.txt".data hp (by decide)
    rw [Option.map_some', h.1]
    have : parseComponents (trim "b/x.txt".data) =
        [Component.normal "b".data, Component.normal "x.txt".data] := by decide
    rw [this]

end StallRegistry

namespace StallRegistry

/-- C4: `read_from_file` first attempts the structured (RON) parse of the
whole contents; a structured success is surfaced directly, and on any
structured failure the final result is exactly the outcome of the
line-list parse of the same bytes, rewound to the start — the structured
error is discarded in favor of the list outcome and no third parsing
attempt exists. -/
theorem read_from_file_fallback (content : List Char) :
    (∀ st, parse_ron_from_bytes content = Except.ok st →
      read_from_file content = some (Except.ok st)) ∧
    (∀ e, parse_ron_from_bytes content = Except.error e →
      read_from_file content = (parse_list_from_file content).map Except.ok) := by
  constructor
  · intro st h
    simp [read_from_file, h]
  · intro e h
    simp [read_from_file, h]

/-- Witness for C4 on empty contents, which fail the structured parse and
fall back to the (successful, empty) list parse. -/
theorem read_from_file_fallback_witness :
    read_from_file [] = (parse_list_from_file []).map Except.ok := by
  have hron : parse_ron_from_bytes [] =
      Except.error "Failed parsing RON file".data := by
    rw [parse_ron_from_bytes, stripExtHeader]
    norm_num
    rw [lexRon]
  exact (read_from_file_fallback []).2 "Failed parsing RON file".data hron

end StallRegistry

namespace StallRegistry

/-! ### Path rendering is inverted by component parsing -/

theorem splitOnChar_no_sep (sep : Char) :
    ∀ xs : List Char, sep ∉ xs → splitOnChar sep xs = [xs] := by
  intro xs
  induction xs with
  | nil => intro _; rfl
  | cons c rest ih =>
    intro h
    simp only [List.mem_cons, not_or] at h
    rw [splitOnChar, if_neg (fun hc => h.1 hc.symm), ih h.2]

theorem splitOnChar_append (sep : Char) :
    ∀ xs ys : List Char, sep ∉ xs →
      splitOnChar sep (xs ++ sep :: ys) = xs :: splitOnChar sep ys := by
  intro xs ys
  induction xs with
  | nil => intro _; simp [splitOnChar]
  | cons c rest ih =>
    intro h
    simp only [List.mem_cons, not_or] at h
    rw [List.cons_append, splitOnChar, if_neg (fun hc => h.1 hc.symm), ih h.2]

theorem compText_validTail (c : Component) (h : validTail c = true) :
    compText c ≠ [] ∧ '/' ∉ compText c := by
  cases c with
  | parentDir => simp [compText]
  | rootDir => simp [validTail] at h
  | curDir => simp [validTail] at h
  | normal s =>
    simp only [validTail, validName, Bool.and_eq_true, Bool.not_eq_true'] at h
    refine ⟨by simpa using h.1.1.1, ?_⟩
    intro hm
    have he : List.elem '/' (compText (Component.normal s)) = true :=
      List.elem_eq_true_of_mem hm
    rw [compText] at he
    have hc : s.contains '/' = false := h.1.1.2
    change List.elem '/' s = false at hc
    rw [he] at hc
    cases hc

theorem partToCompTail_compText (c : Component) (h : validTail c = true) :
    partToCompTail (compText c) = some c := by
  cases c with
  | parentDir => rfl
  | rootDir => simp [validTail] at h
  | curDir => simp [validTail] at h
  | normal s =>
    simp only [validTail, validName, Bool.and_eq_true, Bool.not_eq_true'] at h
    obtain ⟨⟨⟨h1, _⟩, h3⟩, h4⟩ := h
    rw [compText, partToCompTail]
    rw [if_neg (by simpa using h1), if_neg (by simpa using h3), if_neg (by simpa using h4)]

theorem splitOnChar_joinParts :
    ∀ parts : List Component, parts ≠ [] → parts.all validTail = true →
      splitOnChar '/' (joinParts parts) = parts.map compText := by
  intro parts
  induction parts with
  | nil => intro h _; cases h rfl
  | cons c rest ih =>
    intro _ hall
    simp only [List.all_cons, Bool.and_eq_true] at hall
    cases rest with
    | nil =>
      have hj : joinParts [c] = compText c := rfl
      rw [hj, splitOnChar_no_sep '/' (compText c) (compText_validTail c hall.1).2]
      rfl
    | cons d rest' =>
      have hj : joinParts (c :: d :: rest') =
          compText c ++ ('/' :: joinParts (d :: rest')) := rfl
      rw [hj, splitOnChar_append '/' (compText c) _ (compText_validTail c hall.1).2,
        ih (List.cons_ne_nil d rest') hall.2]
      rfl

theorem filterMap_partToCompTail (parts : List Component)
    (hall : parts.all validTail = true) :
    (parts.map compText).filterMap partToCompTail = parts := by
  induction parts with
  | nil => rfl
  | cons c rest ih =>
    simp only [List.all_cons, Bool.and_eq_true] at hall
    rw [List.map_cons, List.filterMap_cons, partToCompTail_compText c hall.1, ih hall.2]

theorem compText_validHead (c : Component) (h : validHead c = true)
    (hnr : c ≠ Component.rootDir) :
    compText c ≠ [] ∧ '/' ∉ compText c := by
  cases c with
  | rootDir => cases hnr rfl
  | curDir => simp [compText]
  | parentDir => simp [compText]
  | normal s =>
    simp only [validHead, validName, Bool.and_eq_true, Bool.not_eq_true'] at h
    refine ⟨by simpa using h.1.1.1, ?_⟩
    intro hm
    have he : List.elem '/' (compText (Component.normal s)) = true :=
      List.elem_eq_true_of_mem hm
    rw [compText] at he
    have hc : s.contains '/' = false := h.1.1.2
    change List.elem '/' s = false at hc
    rw [he] at hc
    cases hc

theorem parse_join_head (c : Component) (rest : List Component)
    (h : validHead c = true) (hnr : c ≠ Component.rootDir)
    (htail : rest.all validTail = true) :
    parseComponents (joinParts (c :: rest)) = c :: rest := by
  obtain ⟨hne, hns⟩ := compText_validHead c h hnr
  have hhead : (if compText c = ['.'] then Component.curDir
      else if compText c = ['.', '.'] then Component.parentDir
      else Component.normal (compText c)) = c := by
    cases c with
    | rootDir => cases hnr rfl
    | curDir => rfl
    | parentDir => rfl
    | normal s =>
      simp only [validHead, validName, Bool.and_eq_true, Bool.not_eq_true'] at h
      rw [compText, if_neg (by simpa using h.1.2), if_neg (by simpa using h.2)]
  cases rest with
  | nil =>
    have hj : joinParts [c] = compText c := rfl
    rw [hj]
    simp only [parseComponents, splitOnChar_no_sep '/' (compText c) hns]
    rw [if_neg hne]
    simp only [List.filterMap_nil]
    rw [hhead]
  | cons d rest' =>
    have hj : joinParts (c :: d :: rest') =
        compText c ++ ('/' :: joinParts (d :: rest')) := rfl
    rw [hj]
    simp only [parseComponents,
      splitOnChar_append '/' (compText c) _ hns,
      splitOnChar_joinParts (d :: rest') (List.cons_ne_nil d rest') htail]
    rw [if_neg hne]
    rw [filterMap_partToCompTail (d :: rest') htail]
    rw [hhead]

theorem parseComponents_renderPath (p : PathBuf) (h : validPath p = true) :
    parseComponents (renderPath p) = p := by
  cases p with
  | nil => rfl
  | cons c rest =>
    rw [validPath, Bool.and_eq_true] at h
    obtain ⟨hhead, htail⟩ := h
    cases c with
    | rootDir =>
      rw [renderPath]
      cases hr : rest with
      | nil => rfl
      | cons d rest' =>
        subst hr
        have hq : ('/' :: joinParts (d :: rest')) = [] ++ '/' :: joinParts (d :: rest') := rfl
        rw [hq]
        simp only [parseComponents,
          splitOnChar_append '/' [] (joinParts (d :: rest')) (by simp),
          splitOnChar_joinParts (d :: rest') (List.cons_ne_nil d rest') htail]
        rw [if_pos trivial, if_neg (by simp), filterMap_partToCompTail (d :: rest') htail]
    | curDir =>
      have hrend : renderPath (Component.curDir :: rest) =
          joinParts (Component.curDir :: rest) := rfl
      rw [hrend]
      exact parse_join_head Component.curDir rest hhead (by simp) htail
    | parentDir =>
      have hrend : renderPath (Component.parentDir :: rest) =
          joinParts (Component.parentDir :: rest) := rfl
      rw [hrend]
      exact parse_join_head Component.parentDir rest hhead (by simp) htail
    | normal s =>
      have hrend : renderPath (Component.normal s :: rest) =
          joinParts (Component.normal s :: rest) := rfl
      rw [hrend]
      exact parse_join_head (Component.normal s) rest hhead (by simp) htail

end StallRegistry

namespace StallRegistry

/-! ### Lexing the generated RON text -/

theorem escape_lexStrBody :
    ∀ (str rest : List Char),
      lexStrBody false (escape str ++ '"' :: rest) = some (str, rest) := by
  intro str
  induction str with
  | nil =>
    intro rest
    simp [escape, lexStrBody]
  | cons c cs ih =>
    intro rest
    rw [escape]
    by_cases hq : c = '"'
    · subst hq
      simp [escapeChar, lexStrBody, unesc, ih rest]
    · by_cases hb : c = '\\'
      · subst hb
        simp [escapeChar, lexStrBody, unesc, ih rest]
      · simp [escapeChar, hq, hb, lexStrBody, ih rest]

theorem lexRon_space (l : List Char) : lexRon (' ' :: l) = lexRon l := by
  simp [lexRon, isWs]

theorem lexRon_newline (l : List Char) : lexRon ('\n' :: l) = lexRon l := by
  simp [lexRon, isWs]

theorem lexRon_lparen (l : List Char) :
    lexRon ('(' :: l) = (lexRon l).map (fun ts => Tok.lparen :: ts) := by
  simp [lexRon, isWs]

theorem lexRon_rparen (l : List Char) :
    lexRon (')' :: l) = (lexRon l).map (fun ts => Tok.rparen :: ts) := by
  simp [lexRon, isWs]

theorem lexRon_lbrace (l : List Char) :
    lexRon ('\x7b' :: l) = (lexRon l).map (fun ts => Tok.lbrace :: ts) := by
  simp [lexRon, isWs]

theorem lexRon_rbrace (l : List Char) :
    lexRon ('\x7d' :: l) = (lexRon l).map (fun ts => Tok.rbrace :: ts) := by
  simp [lexRon, isWs]

theorem lexRon_colon (l : List Char) :
    lexRon (':' :: l) = (lexRon l).map (fun ts => Tok.colon :: ts) := by
  simp [lexRon, isWs]

theorem lexRon_comma (l : List Char) :
    lexRon (',' :: l) = (lexRon l).map (fun ts => Tok.comma :: ts) := by
  simp [lexRon, isWs]

theorem lexRon_str (str l : List Char) :
    lexRon ('"' :: (escape str ++ '"' :: l)) =
      (lexRon l).map (fun ts => Tok.str str :: ts) := by
  rw [lexRon]
  rw [if_neg (by decide), if_neg (by decide), if_neg (by decide), if_neg (by decide),
    if_neg (by decide), if_neg (by decide), if_neg (by decide), if_pos rfl]
  split
  · next s r heq =>
    rw [escape_lexStrBody str l] at heq
    cases heq
    rfl
  · next heq =>
    rw [escape_lexStrBody str l] at heq
    cases heq

theorem lexRon_entries (tail : List Char) :
    lexRon ('e' :: 'n' :: 't' :: 'r' :: 'i' :: 'e' :: 's' :: ':' :: tail) =
      (lexRon (':' :: tail)).map (fun ts => Tok.ident "entries".data :: ts) := by
  rw [lexRon]
  rw [if_neg (by decide), if_neg (by decide), if_neg (by decide), if_neg (by decide),
    if_neg (by decide), if_neg (by decide), if_neg (by decide), if_neg (by decide),
    if_pos (by decide)]
  have htake : ('n' :: 't' :: 'r' :: 'i' :: 'e' :: 's' :: ':' :: tail).takeWhile isIdentChar =
      'n' :: 't' :: 'r' :: 'i' :: 'e' :: 's' :: [] := by
    have : ('n' :: 't' :: 'r' :: 'i' :: 'e' :: 's' :: ':' :: tail) =
        ['n', 't', 'r', 'i', 'e', 's'] ++ ':' :: tail := rfl
    rw [this, List.takeWhile_append_of_pos (by decide)]
    have hc : (':' :: tail).takeWhile isIdentChar = [] := by
      rw [List.takeWhile_cons_of_neg (by decide)]
    rw [hc, List.append_nil]
  have hdrop : ('n' :: 't' :: 'r' :: 'i' :: 'e' :: 's' :: ':' :: tail).dropWhile isIdentChar =
      ':' :: tail := by
    have : ('n' :: 't' :: 'r' :: 'i' :: 'e' :: 's' :: ':' :: tail) =
        ['n', 't', 'r', 'i', 'e', 's'] ++ ':' :: tail := rfl
    rw [this, List.dropWhile_append_of_pos (by decide)]
    rw [List.dropWhile_cons_of_neg (by decide)]
  rw [htake, hdrop]

end StallRegistry

namespace StallRegistry

/-- Token rendering of one serialized entry. -/
def entryToks (p : PathBuf × PathBuf) : List Tok :=
  [Tok.str (renderPath p.1), Tok.colon, Tok.str (renderPath p.2), Tok.comma]

theorem lexRon_entryText (p : PathBuf × PathBuf) (tail : List Char) :
    lexRon (entryText p ++ tail) = (lexRon tail).map (fun ts => entryToks p ++ ts) := by
  have hshape : entryText p ++ tail =
      ' ' :: ' ' :: ' ' :: ' ' :: ' ' :: ' ' :: ' ' :: ' ' ::
      ('"' :: (escape (renderPath p.1) ++ '"' ::
        (':' :: ' ' :: ('"' :: (escape (renderPath p.2) ++ '"' ::
          (',' :: '\n' :: tail)))))) := by
    simp [entryText, spaces4]
  rw [hshape]
  rw [lexRon_space, lexRon_space, lexRon_space, lexRon_space,
    lexRon_space, lexRon_space, lexRon_space, lexRon_space]
  have h1 := lexRon_str (renderPath p.1)
    (':' :: ' ' :: ('"' :: (escape (renderPath p.2) ++ '"' :: (',' :: '\n' :: tail))))
  rw [h1, lexRon_colon, lexRon_space]
  have h2 := lexRon_str (renderPath p.2) (',' :: '\n' :: tail)
  rw [h2, lexRon_comma, lexRon_newline]
  cases lexRon tail with
  | none => rfl
  | some ts => rfl

theorem lexRon_body (es : List (PathBuf × PathBuf)) (tail : List Char) :
    lexRon ((es.map entryText).flatten ++ tail) =
      (lexRon tail).map (fun ts => (es.map entryToks).flatten ++ ts) := by
  induction es with
  | nil =>
    simp only [List.map_nil, List.flatten_nil, List.nil_append]
    cases lexRon tail with
    | none => rfl
    | some ts => rfl
  | cons p rest ih =>
    simp only [List.map_cons, List.flatten_cons, List.append_assoc]
    rw [lexRon_entryText p ((rest.map entryText).flatten ++ tail), ih]
    cases lexRon tail with
    | none => rfl
    | some ts => simp

theorem lexRon_generate (s : Stall) :
    lexRon (stripExtHeader (generate_ron s)) =
      some (Tok.lparen :: Tok.ident "entries".data :: Tok.colon :: Tok.lbrace ::
        ((s.entries.map entryToks).flatten ++ [Tok.rbrace, Tok.comma, Tok.rparen])) := by
  have hstrip : stripExtHeader (generate_ron s) =
      '(' :: '\n' :: (spaces4 ++
        ('e' :: 'n' :: 't' :: 'r' :: 'i' :: 'e' :: 's' :: ':' :: ' ' :: '\x7b' :: '\n' ::
          ((s.entries.map entryText).flatten ++ (spaces4 ++
            ('\x7d' :: ',' :: '\n' :: ')' :: []))))) := by
    unfold generate_ron stripExtHeader
    rw [if_pos]
    · rw [List.drop_left]
    · rw [List.isPrefixOf_iff_prefix]
      exact List.prefix_append _ _
  rw [hstrip]
  rw [lexRon_lparen, lexRon_newline]
  have hsp : spaces4 ++
      ('e' :: 'n' :: 't' :: 'r' :: 'i' :: 'e' :: 's' :: ':' :: ' ' :: '\x7b' :: '\n' ::
        ((s.entries.map entryText).flatten ++ (spaces4 ++ ('\x7d' :: ',' :: '\n' :: ')' :: [])))) =
      ' ' :: ' ' :: ' ' :: ' ' ::
      ('e' :: 'n' :: 't' :: 'r' :: 'i' :: 'e' :: 's' :: ':' :: ' ' :: '\x7b' :: '\n' ::
        ((s.entries.map entryText).flatten ++ (spaces4 ++ ('\x7d' :: ',' :: '\n' :: ')' :: [])))) := rfl
  rw [hsp, lexRon_space, lexRon_space, lexRon_space, lexRon_space]
  rw [lexRon_entries, lexRon_colon, lexRon_space, lexRon_lbrace, lexRon_newline]
  rw [lexRon_body]
  have htail : (spaces4 ++ ('\x7d' :: ',' :: '\n' :: ')' :: [])) =
      ' ' :: ' ' :: ' ' :: ' ' :: ('\x7d' :: ',' :: '\n' :: ')' :: []) := rfl
  rw [htail, lexRon_space, lexRon_space, lexRon_space, lexRon_space,
    lexRon_rbrace, lexRon_comma, lexRon_newline, lexRon_rparen, lexRon]
  simp

theorem parseEntryToks_body (es : List (PathBuf × PathBuf)) (tail : List Tok) :
    parseEntryToks ((es.map entryToks).flatten ++ (Tok.rbrace :: tail)) =
      some (es.map (fun p => (renderPath p.1, renderPath p.2)), tail) := by
  induction es with
  | nil => rfl
  | cons p rest ih =>
    simp only [List.map_cons, List.flatten_cons, entryToks, List.cons_append,
      List.nil_append, List.append_assoc]
    rw [parseEntryToks, ih]
    rfl

theorem foldl_bimapInsert_self :
    ∀ (es acc : List (PathBuf × PathBuf)),
      ((acc ++ es).map Prod.fst).Nodup → ((acc ++ es).map Prod.snd).Nodup →
      es.foldl (fun a p => bimapInsert p.1 p.2 a) acc = acc ++ es := by
  intro es
  induction es with
  | nil =>
    intro acc _ _
    simp
  | cons p rest ih =>
    intro acc h1 h2
    have hstep : bimapInsert p.1 p.2 acc = acc ++ [p] := by
      unfold bimapInsert
      congr 1
      rw [List.filter_eq_self]
      intro a ha
      simp only [Bool.and_eq_true, Bool.not_eq_true', beq_eq_false_iff_ne]
      constructor
      · intro heq
        rw [List.map_append, List.nodup_append] at h1
        exact h1.2.2 (List.mem_map.mpr ⟨a, ha, rfl⟩)
          (by simp only [List.map_cons, List.mem_cons]; exact Or.inl heq)
      · intro heq
        rw [List.map_append, List.nodup_append] at h2
        exact h2.2.2 (List.mem_map.mpr ⟨a, ha, rfl⟩)
          (by simp only [List.map_cons, List.mem_cons]; exact Or.inl heq)
    rw [List.foldl_cons, hstep]
    have hre : (acc ++ [p]) ++ rest = acc ++ p :: rest := by simp
    rw [ih (acc ++ [p]) (by rw [hre]; exact h1) (by rw [hre]; exact h2), hre]

end StallRegistry

namespace StallRegistry

theorem deserialize_rendered (es : List (PathBuf × PathBuf))
    (hval : ∀ p ∈ es, validPath p.1 = true ∧ validPath p.2 = true) :
    deserializeEntries (es.map (fun p => (renderPath p.1, renderPath p.2))) =
      es.foldl (fun a p => bimapInsert p.1 p.2 a) [] := by
  unfold deserializeEntries
  rw [List.foldl_map]
  have main : ∀ (l : List (PathBuf × PathBuf)) (acc : List (PathBuf × PathBuf)),
      (∀ p ∈ l, validPath p.1 = true ∧ validPath p.2 = true) →
      l.foldl (fun a p => bimapInsert (parseComponents (renderPath p.1))
        (parseComponents (renderPath p.2)) a) acc =
      l.foldl (fun a p => bimapInsert p.1 p.2 a) acc := by
    intro l
    induction l with
    | nil => intro acc _; rfl
    | cons p rest ih =>
      intro acc hv
      simp only [List.foldl_cons]
      rw [parseComponents_renderPath p.1 (hv p (List.mem_cons_self p rest)).1,
        parseComponents_renderPath p.2 (hv p (List.mem_cons_self p rest)).2]
      exact ih _ (fun q hq => hv q (List.mem_cons_of_mem p hq))
  exact main es [] hval

/-- C5: serializing a registry with the structured (RON) generator and
parsing the produced bytes back with the structured parser — the first
step of `read_from_file` — succeeds and reproduces the registry's entry
set exactly (here even as the same list of pairs).  The hypotheses are the
bijection invariant every reachable registry satisfies, normalized path
components (every Rust path value is stored as such), and the claim's
non-empty entry set. -/
theorem generate_parse_roundtrip (s : Stall)
    (hinv : StallInv s)
    (hval : ∀ p ∈ s.entries, validPath p.1 = true ∧ validPath p.2 = true)
    (hne : s.entries ≠ []) :
    ∃ s', parse_ron_from_bytes (generate_ron s) = Except.ok s' ∧
      s'.entries = s.entries := by
  refine ⟨⟨LoadStatus.init, s.entries⟩, ?_, rfl⟩
  unfold parse_ron_from_bytes
  simp only [lexRon_generate s, parseEntryToks_body s.entries [Tok.comma, Tok.rparen],
    if_pos rfl, if_pos (Or.inl rfl : ([Tok.comma, Tok.rparen] = [Tok.comma, Tok.rparen] ∨
      [Tok.comma, Tok.rparen] = [Tok.rparen]))]
  rw [deserialize_rendered s.entries hval]
  rw [foldl_bimapInsert_self s.entries [] (by simpa using hinv.1) (by simpa using hinv.2)]
  rw [if_pos trivial, if_pos (Or.inl trivial)]
  rw [List.nil_append]

/-- Witness for C5 at a one-entry registry. -/
theorem generate_parse_roundtrip_witness :
    ∃ s', parse_ron_from_bytes (generate_ron (Stall.mk ⟨none, true⟩
        [([Component.normal "a".data],
          [Component.normal "b".data, Component.normal "a".data])])) = Except.ok s' ∧
      s'.entries = (Stall.mk ⟨none, true⟩
        [([Component.normal "a".data],
          [Component.normal "b".data, Component.normal "a".data])]).entries :=
  generate_parse_roundtrip _ ⟨by decide, by decide⟩ (by decide) (by decide)

end StallRegistry
